import Mathlib

/-!
Verification of the git-diff parsing and word-diff core of the canvas
repository (`src/canvas/src/scenarios/diff/view.ts` and the data model of
`src/canvas/src/canvases/diff/types.ts`).

Strings are embedded as `List Char`; a line of input is one `Line`.  The
source walks a shared array of lines with a monotone index `i`; here every
parsing function instead consumes a list of lines and returns the unread
suffix, which is the same traversal expressed without mutable indices.
-/

abbrev Line := List Char

/-- `String.prototype.startsWith`, restricted to the character lists we use. -/
def sw : List Char → List Char → Bool
  | [], _ => true
  | _ :: _, [] => false
  | p :: ps, c :: cs => p == c && sw ps cs

/-- Marker `"diff --git"`. -/
def diffGitMarker : List Char := "diff --git".data

/-- Marker `"new file mode"`. -/
def newFileModeMarker : List Char := "new file mode".data

/-- Marker `"deleted file mode"`. -/
def deletedFileModeMarker : List Char := "deleted file mode".data

/-- Marker `"rename from"`. -/
def renameFromMarker : List Char := "rename from".data

/-- Marker `"copy from"`. -/
def copyFromMarker : List Char := "copy from".data

/-- Marker `"index "`. -/
def indexMarker : List Char := "index ".data

/-- Marker `"--- "`. -/
def dashesMarker : List Char := "--- ".data

/-- Marker `"+++ "`. -/
def plusesMarker : List Char := "+++ ".data

/-- Marker `"@@"`. -/
def atAtMarker : List Char := "@@".data

/-- Marker `"Binary files"`. -/
def binaryFilesMarker : List Char := "Binary files".data

/-- Marker `"similarity index"`. -/
def similarityMarker : List Char := "similarity index".data

/-- Marker `"rename to"`. -/
def renameToMarker : List Char := "rename to".data

/-- Marker `"copy to"`. -/
def copyToMarker : List Char := "copy to".data

/-- The literal `"diff --git a/"` that opens the file-boundary regex. -/
def gitPathPre : List Char := "diff --git a/".data

/-- The literal `" b/"` separating the two paths in the file-boundary regex. -/
def bSep : List Char := " b/".data

/-- The literal `"@@ -"` that opens the hunk-header regex. -/
def hunkPre : List Char := "@@ -".data

/-- The literal `" +"` between the two ranges of the hunk-header regex. -/
def plusSep : List Char := " +".data

/-- The literal `" @@"` closing the ranges of the hunk-header regex. -/
def atAtSep : List Char := " @@".data

/-- `diffOutput.split("\n")`: split on every newline, no collapsing;
the empty string yields one empty line. -/
def splitLines : List Char → List Line
  | [] => [[]]
  | c :: cs =>
    if c == '\n' then [] :: splitLines cs
    else
      match splitLines cs with
      | [] => [[c]]
      | l :: ls => (c :: l) :: ls

/-- Whether `p` occurs as a contiguous substring anywhere in `s`. -/
def hasSub (p : List Char) : List Char → Bool
  | [] => sw p []
  | c :: rest => sw p (c :: rest) || hasSub p rest

-- ============================================
-- Data model (types.ts)
-- ============================================

/-- `FileStatus` from types.ts. -/
inductive FileStatus
  | added
  | deleted
  | modified
  | renamed
  | copied
deriving DecidableEq, Repr, Inhabited

/-- `ChangeType` from types.ts. -/
inductive ChangeType
  | add
  | delete
  | normal
deriving DecidableEq, Repr, Inhabited

/-- `WordChange` from types.ts. -/
structure WordChange where
  type : ChangeType
  value : Line
deriving DecidableEq, Repr, Inhabited

/-- `DiffChange` from types.ts.  The optional fields mirror the optional
`oldLineNumber?`/`newLineNumber?`/`wordDiff?` fields of the source record. -/
structure DiffChange where
  type : ChangeType
  content : Line
  oldLineNumber : Option Nat := none
  newLineNumber : Option Nat := none
  wordDiff : Option (List WordChange) := none
deriving DecidableEq, Repr, Inhabited

/-- `DiffHunk` from types.ts. -/
structure DiffHunk where
  header : Line
  oldStart : Nat
  oldLines : Nat
  newStart : Nat
  newLines : Nat
  changes : List DiffChange
  isExpanded : Bool
deriving DecidableEq, Repr, Inhabited

/-- `DiffFile` from types.ts. -/
structure DiffFile where
  oldPath : Line
  newPath : Line
  hunks : List DiffHunk
  status : FileStatus
  isExpanded : Bool
deriving DecidableEq, Repr, Inhabited

-- ============================================
-- Parser (view.ts)
-- ============================================

/-- Search for the split of `/^diff --git a\/(.+?) b\/(.+)$/` after the
literal `"diff --git a/"`: the lazy `(.+?)` takes the shortest non-empty
old path such that the rest is `" b/"` followed by a non-empty new path
(the greedy `(.+)$` takes everything to the end of the line). -/
def findPathSplit (acc : List Char) : List Char → Option (Line × Line)
  | [] => none
  | c :: rest =>
    if sw bSep rest && decide (rest.length > 3) then some (acc ++ [c], rest.drop 3)
    else findPathSplit (acc ++ [c]) rest

/-- The match of `/^diff --git a\/(.+?) b\/(.+)$/` against a line,
returning the two captured paths. -/
def matchGitLine (l : Line) : Option (Line × Line) :=
  if sw gitPathPre l then findPathSplit [] (l.drop gitPathPre.length) else none

/-- `if sw p l` strip the matched literal, else fail. -/
def stripPre (p l : Line) : Option Line :=
  if sw p l then some (l.drop p.length) else none

/-- `parseInt(digits, 10)` over the decimal digits captured by `(\d+)`. -/
def digitsVal (l : Line) : Nat :=
  l.foldl (fun n c => n * 10 + (c.toNat - 48)) 0

/-- Greedy `(\d+)`: at least one leading decimal digit, returning its value
and the rest of the line. -/
def parseNum (l : Line) : Option (Nat × Line) :=
  let ds := l.takeWhile (fun c => c.isDigit)
  if ds.isEmpty then none else some (digitsVal ds, l.drop ds.length)

/-- The optional group `(?:,(\d+))?`: if a comma follows, digits must follow
it (when they do not, the regex as a whole fails, because the following
literal can never match the comma); with no comma the group is skipped. -/
def parseOptComma (l : Line) : Option (Option Nat × Line) :=
  match l with
  | ',' :: rest =>
    match parseNum rest with
    | some (n, r) => some (some n, r)
    | none => none
  | _ => some (none, l)

/-- The match of `/^@@ -(\d+)(?:,(\d+))? \+(\d+)(?:,(\d+))? @@(.*)$/`:
old start, optional old count, new start, optional new count, and the
trailing context capture. -/
def matchHunkHeader (l : Line) : Option (Nat × Option Nat × Nat × Option Nat × Line) := do
  let r1 ← stripPre hunkPre l
  let (o, r2) ← parseNum r1
  let (ol, r3) ← parseOptComma r2
  let r4 ← stripPre plusSep r3
  let (n, r5) ← parseNum r4
  let (nl, r6) ← parseOptComma r5
  let r7 ← stripPre atAtSep r6
  some (o, ol, n, nl, r7)

/-- The metadata loop of `parseFile`: scan lines after the `diff --git`
boundary, updating the running status on each status marker, until the next
file boundary, the first `@@`, or a `Binary files` line (which is consumed).
The final three source branches (`similarity index`, `rename to`, `copy to`)
and the catch-all all advance without further effect and are merged. -/
def scanMeta : List Line → FileStatus → FileStatus × List Line
  | [], st => (st, [])
  | l :: ls, st =>
    if sw diffGitMarker l then (st, l :: ls)
    else if sw newFileModeMarker l then scanMeta ls .added
    else if sw deletedFileModeMarker l then scanMeta ls .deleted
    else if sw renameFromMarker l then scanMeta ls .renamed
    else if sw copyFromMarker l then scanMeta ls .copied
    else if sw indexMarker l then scanMeta ls st
    else if sw dashesMarker l then scanMeta ls st
    else if sw plusesMarker l then scanMeta ls st
    else if sw atAtMarker l then (st, l :: ls)
    else if sw binaryFilesMarker l then (st, ls)
    else scanMeta ls st

/-- The change-line loop of `parseHunk`, carrying the running old/new line
counters.  Stops (without consuming) at the next hunk or file boundary, at a
final empty line, or at any other non-empty unrecognized line; a `\` line is
skipped; an empty line elsewhere becomes a `normal` change. -/
def parseHunkBody : List Line → Nat → Nat → List DiffChange × List Line
  | [], _, _ => ([], [])
  | l :: rest, co, cn =>
    if sw atAtMarker l || sw diffGitMarker l then ([], l :: rest)
    else if l.isEmpty && rest.isEmpty then ([], l :: rest)
    else
      match l with
      | [] =>
        let pr := parseHunkBody rest (co + 1) (cn + 1)
        ({ type := .normal, content := [], oldLineNumber := some co,
           newLineNumber := some cn } :: pr.1, pr.2)
      | c :: cs =>
        if c == '+' then
          let pr := parseHunkBody rest co (cn + 1)
          ({ type := .add, content := cs, newLineNumber := some cn } :: pr.1, pr.2)
        else if c == '-' then
          let pr := parseHunkBody rest (co + 1) cn
          ({ type := .delete, content := cs, oldLineNumber := some co } :: pr.1, pr.2)
        else if c == ' ' then
          let pr := parseHunkBody rest (co + 1) (cn + 1)
          ({ type := .normal, content := cs, oldLineNumber := some co,
             newLineNumber := some cn } :: pr.1, pr.2)
        else if c == '\\' then parseHunkBody rest co cn
        else ([], l :: rest)

/-- `parseHunk`: match the header line against the hunk-header regex
(dropping the hunk on mismatch), apply the omitted-count defaults, and parse
the body lines that follow. -/
def parseHunk (ls : List Line) (d : Bool) : Option (DiffHunk × List Line) :=
  match ls with
  | [] => none
  | header :: rest =>
    match matchHunkHeader header with
    | none => none
    | some (o, olOpt, n, nlOpt, _ctx) =>
      let pr := parseHunkBody rest o n
      some ({ header := header, oldStart := o, oldLines := olOpt.getD 1,
              newStart := n, newLines := nlOpt.getD 1, changes := pr.1,
              isExpanded := d }, pr.2)

/-- One iteration of the hunk loop at an `@@` line: on header mismatch the
source advances by a single line, otherwise to the end of the parsed hunk. -/
def parseHunkStep (l : Line) (rest : List Line) (d : Bool) :
    Option DiffHunk × List Line :=
  match parseHunk (l :: rest) d with
  | some (h, r) => (some h, r)
  | none => (none, rest)

theorem sw_isEmpty_of (p l : List Char) (h : sw p l = true) (hp : p ≠ []) :
    l.isEmpty = false := by
  cases p with
  | nil => exact absurd rfl hp
  | cons a ps =>
    cases l with
    | nil => simp [sw] at h
    | cons c cs => simp

theorem takeWhile_length_le (p : α → Bool) (l : List α) :
    (l.takeWhile p).length ≤ l.length := by
  induction l with
  | nil => simp
  | cons a t ih =>
    rw [List.takeWhile_cons]
    split
    · simpa using ih
    · simp

theorem dropWhile_length_le (p : α → Bool) (l : List α) :
    (l.dropWhile p).length ≤ l.length := by
  induction l with
  | nil => simp
  | cons a t ih =>
    rw [List.dropWhile_cons]
    split
    · simpa using Nat.le_succ_of_le ih
    · simp

theorem scanMeta_length (ls : List Line) (st : FileStatus) :
    (scanMeta ls st).2.length ≤ ls.length := by
  induction ls, st using scanMeta.induct
  all_goals rw [scanMeta]
  all_goals simp_all
  all_goals omega

theorem parseHunkBody_length (ls : List Line) (co cn : Nat) :
    (parseHunkBody ls co cn).2.length ≤ ls.length := by
  induction ls, co, cn using parseHunkBody.induct
  all_goals rw [parseHunkBody.eq_def]
  all_goals simp_all
  all_goals omega

theorem parseHunkStep_length (l : Line) (rest : List Line) (d : Bool) :
    (parseHunkStep l rest d).2.length ≤ rest.length := by
  rw [parseHunkStep]
  cases hm : matchHunkHeader l with
  | none => simp [parseHunk, hm]
  | some q =>
    obtain ⟨o, ol, n, nl, ctx⟩ := q
    simp [parseHunk, hm]
    exact parseHunkBody_length _ _ _

/-- The hunk loop of `parseFile`: from the end of the metadata, repeatedly
parse `@@` blocks (skipping other lines) until the next file boundary. -/
def parseHunks (ls : List Line) (d : Bool) : List DiffHunk × List Line :=
  match ls with
  | [] => ([], [])
  | l :: rest =>
    if sw diffGitMarker l then ([], l :: rest)
    else if sw atAtMarker l then
      let pr := parseHunkStep l rest d
      let nxt := parseHunks pr.2 d
      (pr.1.toList ++ nxt.1, nxt.2)
    else parseHunks rest d
termination_by ls.length
decreasing_by
  · simp only [List.length_cons]
    exact Nat.lt_succ_of_le (parseHunkStep_length _ _ _)
  · simp

theorem parseHunks_length (ls : List Line) (d : Bool) :
    (parseHunks ls d).2.length ≤ ls.length := by
  induction ls, d using parseHunks.induct
  all_goals rw [parseHunks]
  all_goals simp_all
  all_goals try omega
  all_goals rename_i ih
  all_goals exact le_trans ih (le_trans (parseHunkStep_length _ _ _) (Nat.le_succ _))

/-- `parseFile`: match the boundary line against the file regex (a mismatch
skips the section), scan the metadata for the status, then collect hunks up
to the next file boundary. -/
def parseFile (ls : List Line) (d : Bool) : Option (DiffFile × List Line) :=
  match ls with
  | [] => none
  | gitLine :: rest =>
    match matchGitLine gitLine with
    | none => none
    | some (oldPath, newPath) =>
      let ms := scanMeta rest .modified
      let hs := parseHunks ms.2 d
      some ({ oldPath := oldPath, newPath := newPath, hunks := hs.1,
              status := ms.1, isExpanded := d }, hs.2)

/-- One iteration of the top-level loop at a `diff --git` line: on regex
mismatch the source advances a single line and emits nothing, otherwise to
the end of the parsed file section. -/
def parseFileStep (l : Line) (rest : List Line) (d : Bool) :
    Option DiffFile × List Line :=
  match parseFile (l :: rest) d with
  | some (f, r) => (some f, r)
  | none => (none, rest)

theorem parseFileStep_length (l : Line) (rest : List Line) (d : Bool) :
    (parseFileStep l rest d).2.length ≤ rest.length := by
  rw [parseFileStep]
  cases hm : matchGitLine l with
  | none => simp [parseFile, hm]
  | some q =>
    obtain ⟨op, np⟩ := q
    simp [parseFile, hm]
    calc (parseHunks (scanMeta rest FileStatus.modified).2 d).2.length
        ≤ (scanMeta rest FileStatus.modified).2.length := parseHunks_length _ _
      _ ≤ rest.length := scanMeta_length _ _

/-- The top-level loop of `parseGitDiff` over the pre-split line list. -/
def parseGitDiffLines (ls : List Line) (d : Bool) : List DiffFile :=
  match ls with
  | [] => []
  | l :: rest =>
    if sw diffGitMarker l then
      let pr := parseFileStep l rest d
      pr.1.toList ++ parseGitDiffLines pr.2 d
    else parseGitDiffLines rest d
termination_by ls.length
decreasing_by
  · simp only [List.length_cons]
    exact Nat.lt_succ_of_le (parseFileStep_length _ _ _)
  · simp

/-- `parseGitDiff`: split the raw diff text on newlines and run the
top-level loop. -/
def parseGitDiff (diffOutput : List Char) (expandedByDefault : Bool) :
    List DiffFile :=
  parseGitDiffLines (splitLines diffOutput) expandedByDefault

-- ============================================
-- Word-level diff (view.ts)
-- ============================================

/-- `/\w/.test(char)`: ASCII letters, digits, underscore. -/
def isWordChar (c : Char) : Bool := c.isAlphanum || c == '_'

/-- The accumulator loop of `tokenize`: `current` is the run being grown,
`inWord` the class of its characters; a class flip with a non-empty run
pushes the run. -/
def tokenizeAux : List Char → List Char → Bool → List Line
  | [], current, _ => if current.isEmpty then [] else [current]
  | c :: cs, current, inWord =>
    if isWordChar c != inWord && !current.isEmpty then
      current :: tokenizeAux cs [c] (isWordChar c)
    else tokenizeAux cs (current ++ [c]) (isWordChar c)

/-- `tokenize`: split a line into maximal word / non-word character runs. -/
def tokenize (line : Line) : List Line := tokenizeAux line [] false

/-- One inner pass of the LCS dynamic-programming fill: compute row `i`
entries `1..n` from the previous row (`prev`, aligned so that its head is
entry `j-1`) and the entry just written to the left (`left`). -/
def buildRow (ai : Line) : List Line → List Nat → Nat → List Nat
  | [], _, _ => []
  | bj :: brest, prev, left =>
    (if ai == bj then prev.headD 0 + 1
     else max ((prev.drop 1).headD 0) left) ::
      buildRow ai brest (prev.drop 1)
        (if ai == bj then prev.headD 0 + 1
         else max ((prev.drop 1).headD 0) left)

/-- The outer pass of the DP fill: one full row per element of `a`. -/
def lcsRowsAux (b : List Line) : List Line → List Nat → List (List Nat)
  | [], _ => []
  | ai :: arest, prev =>
    (0 :: buildRow ai b prev 0) ::
      lcsRowsAux b arest (0 :: buildRow ai b prev 0)

/-- The `(m+1)×(n+1)` DP table of `computeLCS`, row 0 and column 0 zero. -/
def lcsTable (a b : List Line) : List (List Nat) :=
  List.replicate (b.length + 1) 0 :: lcsRowsAux b a (List.replicate (b.length + 1) 0)

/-- `dp[i][j]` lookup. -/
def dpAt (dp : List (List Nat)) (i j : Nat) : Nat := (dp.getD i []).getD j 0

/-- The backtracking loop of `computeLCS`, prepending matched elements while
walking the table from `(i, j)` toward the origin.  The source loop runs
`while (i > 0 && j > 0)` and shrinks `i + j` on every iteration, so the
extra `fuel` argument (called with `i + j`) never reaches zero before the
loop stops on its own. -/
def lcsBacktrackAux (a b : List Line) (dp : List (List Nat)) :
    Nat → Nat → Nat → List Line → List Line
  | 0, _, _, acc => acc
  | _ + 1, 0, _, acc => acc
  | _ + 1, _ + 1, 0, acc => acc
  | fuel + 1, i + 1, j + 1, acc =>
    if a.getD i [] == b.getD j [] then
      lcsBacktrackAux a b dp fuel i j (a.getD i [] :: acc)
    else if dpAt dp i (j + 1) > dpAt dp (i + 1) j then
      lcsBacktrackAux a b dp fuel i (j + 1) acc
    else lcsBacktrackAux a b dp fuel (i + 1) j acc

/-- `computeLCS`: classic O(m·n) DP table plus backtrack. -/
def computeLCS (a b : List Line) : List Line :=
  lcsBacktrackAux a b (lcsTable a b) (a.length + b.length) a.length b.length []

/-- The merge loop of `computeLineDiff`, walking the old tokens, new tokens
and the LCS.  While LCS elements remain: old tokens before the next LCS
element become `delete` word-tokens (kept only when annotating the delete
side), new tokens before it become `add` word-tokens (kept only on the add
side), then the common element is emitted as `normal`; the loop stops when
both token lists are exhausted.  With no LCS elements left, all remaining
old tokens are deletions and all remaining new tokens additions. -/
def lineDiffWalk (forType : ChangeType) :
    List Line → List Line → List Line → List WordChange
  | ows, nws, [] =>
    (if forType == ChangeType.delete then
        ows.map (fun w => { type := ChangeType.delete, value := w }) else [])
      ++ (if forType == ChangeType.add then
        nws.map (fun w => { type := ChangeType.add, value := w }) else [])
  | ows, nws, l :: ls =>
    if ows.isEmpty && nws.isEmpty then []
    else
      (if forType == ChangeType.delete then
          (ows.takeWhile (fun w => w != l)).map
            (fun w => { type := ChangeType.delete, value := w }) else [])
        ++ (if forType == ChangeType.add then
          (nws.takeWhile (fun w => w != l)).map
            (fun w => { type := ChangeType.add, value := w }) else [])
        ++ ({ type := ChangeType.normal, value := l } ::
          lineDiffWalk forType ((ows.dropWhile (fun w => w != l)).drop 1)
            ((nws.dropWhile (fun w => w != l)).drop 1) ls)

/-- `computeLineDiff`: tokenize both lines, compute the token LCS, and emit
the word-tokens for the requested side. -/
def computeLineDiff (oldLine newLine : Line) (forType : ChangeType) :
    List WordChange :=
  lineDiffWalk forType (tokenize oldLine) (tokenize newLine)
    (computeLCS (tokenize oldLine) (tokenize newLine))

/-- The first annotation loop of `computeHunkWordDiffs`: each delete of the
block, paired positionally with the add of the same index while
`j < maxPairs`. -/
def annotateDeletes (deletes adds : List DiffChange) : List DiffChange :=
  deletes.mapIdx (fun j dl =>
    if j < min deletes.length adds.length then
      { dl with
        wordDiff := some (computeLineDiff dl.content
          (adds.getD j default).content ChangeType.delete) }
    else dl)

/-- The second annotation loop of `computeHunkWordDiffs`: same pairing on
the add side. -/
def annotateAdds (deletes adds : List DiffChange) : List DiffChange :=
  adds.mapIdx (fun j al =>
    if j < min deletes.length adds.length then
      { al with
        wordDiff := some (computeLineDiff
          (deletes.getD j default).content al.content ChangeType.add) }
    else al)

/-- `computeHunkWordDiffs`: group each maximal run of deletes and the add
run that immediately follows it; when both runs are non-empty and neither
exceeds five entries, annotate the positional pairs; otherwise pass the
block through unchanged. -/
def computeHunkWordDiffs (changes : List DiffChange) : List DiffChange :=
  match changes with
  | [] => []
  | c :: cs =>
    if hc : c.type == ChangeType.delete then
      (if ((c :: cs).takeWhile (fun x => x.type == ChangeType.delete)).length > 0
          && (((c :: cs).dropWhile (fun x => x.type == ChangeType.delete)).takeWhile
              (fun x => x.type == ChangeType.add)).length > 0
          && ((c :: cs).takeWhile (fun x => x.type == ChangeType.delete)).length ≤ 5
          && (((c :: cs).dropWhile (fun x => x.type == ChangeType.delete)).takeWhile
              (fun x => x.type == ChangeType.add)).length ≤ 5 then
        annotateDeletes ((c :: cs).takeWhile (fun x => x.type == ChangeType.delete))
            (((c :: cs).dropWhile (fun x => x.type == ChangeType.delete)).takeWhile
              (fun x => x.type == ChangeType.add))
          ++ annotateAdds ((c :: cs).takeWhile (fun x => x.type == ChangeType.delete))
            (((c :: cs).dropWhile (fun x => x.type == ChangeType.delete)).takeWhile
              (fun x => x.type == ChangeType.add))
      else
        (c :: cs).takeWhile (fun x => x.type == ChangeType.delete)
          ++ ((c :: cs).dropWhile (fun x => x.type == ChangeType.delete)).takeWhile
            (fun x => x.type == ChangeType.add))
      ++ computeHunkWordDiffs
        (((c :: cs).dropWhile (fun x => x.type == ChangeType.delete)).dropWhile
          (fun x => x.type == ChangeType.add))
    else c :: computeHunkWordDiffs cs
termination_by changes.length
decreasing_by
  · simp only [List.length_cons]
    calc ((((c :: cs).dropWhile (fun x => x.type == ChangeType.delete)).dropWhile
            (fun x => x.type == ChangeType.add))).length
        ≤ ((c :: cs).dropWhile (fun x => x.type == ChangeType.delete)).length :=
          dropWhile_length_le _ _
      _ = (cs.dropWhile (fun x => x.type == ChangeType.delete)).length := by
          rw [List.dropWhile_cons]
          simp [hc]
      _ ≤ cs.length := dropWhile_length_le _ _
      _ < cs.length + 1 := Nat.lt_succ_self _
  · simp

/-- `computeWordDiffs`: map the per-hunk annotation over every file. -/
def computeWordDiffs (files : List DiffFile) : List DiffFile :=
  files.map (fun file =>
    { file with hunks := file.hunks.map (fun hunk =>
        { hunk with changes := computeHunkWordDiffs hunk.changes }) })

-- ============================================
-- Prefix and line-splitting lemmas
-- ============================================

theorem sw_iff_exists (p l : List Char) : sw p l = true ↔ ∃ t, l = p ++ t := by
  induction p generalizing l with
  | nil => simp [sw]
  | cons a ps ih =>
    cases l with
    | nil => simp [sw]
    | cons c cs =>
      simp only [sw, Bool.and_eq_true, beq_iff_eq, ih, List.cons_append,
        List.cons.injEq]
      constructor
      · rintro ⟨rfl, t, rfl⟩
        exact ⟨t, rfl, rfl⟩
      · rintro ⟨t, rfl, rfl⟩
        exact ⟨rfl, t, rfl⟩

theorem sw_refl_append (p t : List Char) : sw p (p ++ t) = true :=
  (sw_iff_exists p (p ++ t)).mpr ⟨t, rfl⟩

theorem sw_of_sw_append (p q l : List Char) (h : sw (p ++ q) l = true) :
    sw p l = true := by
  rw [sw_iff_exists] at h ⊢
  obtain ⟨t, rfl⟩ := h
  exact ⟨q ++ t, by simp⟩

theorem splitLines_head_exists (s : List Char) :
    ∃ l0 ls0 t, splitLines s = l0 :: ls0 ∧ s = l0 ++ t := by
  induction s with
  | nil => exact ⟨[], [], [], rfl, rfl⟩
  | cons c cs ih =>
    obtain ⟨l0, ls0, t, h1, h2⟩ := ih
    by_cases hc : c = '\n'
    · subst hc
      exact ⟨[], splitLines cs, '\n' :: cs, by rw [splitLines]; simp, rfl⟩
    · refine ⟨c :: l0, ls0, t, ?_, ?_⟩
      · rw [splitLines]
        simp [hc, h1]
      · simp [h2]

theorem mem_splitLines (s : List Char) (l : Line) (h : l ∈ splitLines s) :
    ∃ pre post, s = pre ++ l ++ post := by
  induction s generalizing l with
  | nil =>
    rw [splitLines] at h
    simp at h
    subst h
    exact ⟨[], [], rfl⟩
  | cons c cs ih =>
    by_cases hc : c = '\n'
    · subst hc
      rw [splitLines] at h
      simp at h
      rcases h with rfl | h
      · exact ⟨[], '\n' :: cs, rfl⟩
      · obtain ⟨pre, post, hs⟩ := ih l h
        exact ⟨'\n' :: pre, post, by simp [hs]⟩
    · obtain ⟨l0, ls0, t, h1, h2⟩ := splitLines_head_exists cs
      rw [splitLines] at h
      simp [hc, h1] at h
      rcases h with rfl | h
      · exact ⟨[], t, by simp [h2]⟩
      · have hmem : l ∈ splitLines cs := by
          rw [h1]
          exact List.mem_cons_of_mem _ h
        obtain ⟨pre, post, hs⟩ := ih l hmem
        exact ⟨c :: pre, post, by simp [hs]⟩

theorem hasSub_of_here (p rest : List Char) : hasSub p (p ++ rest) = true := by
  cases hp : p with
  | nil =>
    cases rest with
    | nil => rfl
    | cons a t => simp [hasSub, sw]
  | cons a ps =>
    have hsw : sw (a :: ps) ((a :: ps) ++ rest) = true := sw_refl_append _ _
    rw [List.cons_append, hasSub]
    rw [List.cons_append] at hsw
    simp [hsw]

theorem hasSub_cons_of (p : List Char) (c : Char) (rest : List Char)
    (h : hasSub p rest = true) : hasSub p (c :: rest) = true := by
  rw [hasSub]
  simp [h]

theorem hasSub_of_decomp (p pre l post : List Char) (hl : sw p l = true) :
    hasSub p (pre ++ l ++ post) = true := by
  obtain ⟨t, rfl⟩ := (sw_iff_exists p l).mp hl
  induction pre with
  | nil =>
    simp only [List.nil_append, List.append_assoc]
    exact hasSub_of_here p (t ++ post)
  | cons c pre' ih =>
    exact hasSub_cons_of p c _ ih

theorem parseGitDiffLines_skip (ls : List Line) (d : Bool)
    (h : ∀ l ∈ ls, sw diffGitMarker l = false) :
    parseGitDiffLines ls d = [] := by
  induction ls with
  | nil => rw [parseGitDiffLines]
  | cons l rest ih =>
    rw [parseGitDiffLines]
    simp only [h l (by simp)]
    exact ih (fun x hx => h x (List.mem_cons_of_mem _ hx))

/-- C2: `parseGitDiff` is a total function: on every input it returns a
(possibly empty) list of `DiffFile`s — the embedding raises no exception or
error result — and when the input contains no `diff --git` substring
anywhere, the returned sequence is empty. -/
theorem parseGitDiff_total_and_empty_without_marker :
    ∀ (s : List Char) (d : Bool), ∃ fs : List DiffFile, parseGitDiff s d = fs ∧
      (hasSub diffGitMarker s = false → fs = []) := by
  intro s d
  refine ⟨parseGitDiff s d, rfl, fun hns => ?_⟩
  rw [parseGitDiff]
  apply parseGitDiffLines_skip
  intro l hl
  by_contra hsw
  rw [Bool.not_eq_false] at hsw
  obtain ⟨pre, post, hs⟩ := mem_splitLines s l hl
  rw [hs, hasSub_of_decomp diffGitMarker pre l post hsw] at hns
  exact absurd hns (by simp)

/-- Witness for C2 at a concrete marker-free input. -/
theorem parseGitDiff_total_and_empty_without_marker_witness :
    parseGitDiff ("hello\nworld".data) true = [] := by
  obtain ⟨fs, h1, h2⟩ :=
    parseGitDiff_total_and_empty_without_marker ("hello\nworld".data) true
  rw [h1, h2 (by decide)]

-- ============================================
-- Tokenizer lemmas (C6)
-- ============================================

theorem tokenizeAux_flatten (cs current : List Char) (b : Bool) :
    (tokenizeAux cs current b).flatten = current ++ cs := by
  induction cs generalizing current b with
  | nil =>
    by_cases h : current.isEmpty
    · rw [List.isEmpty_iff] at h
      simp [tokenizeAux, h]
    · simp [tokenizeAux, h]
  | cons c cs ih =>
    rw [tokenizeAux]
    split
    · simp [ih]
    · simp [ih]

theorem tokenizeAux_good (cs : List Char) (current : List Char) (b : Bool)
    (hcur : ∀ c ∈ current, isWordChar c = b) :
    (∀ t ∈ tokenizeAux cs current b, t ≠ [] ∧
        ∀ c ∈ t, isWordChar c = isWordChar (t.headD ' '))
    ∧ List.Chain' (fun s t => isWordChar (s.headD ' ') ≠ isWordChar (t.headD ' '))
        (tokenizeAux cs current b)
    ∧ (∀ t0 ts, tokenizeAux cs current b = t0 :: ts → current ≠ [] →
        isWordChar (t0.headD ' ') = b) := by
  induction cs generalizing current b with
  | nil =>
    cases current with
    | nil =>
      refine ⟨by simp [tokenizeAux], by simp [tokenizeAux], ?_⟩
      intro t0 ts heq hne
      exact absurd rfl hne
    | cons c0 cur' =>
      refine ⟨?_, ?_, ?_⟩
      · intro t ht
        simp [tokenizeAux] at ht
        subst ht
        refine ⟨by simp, ?_⟩
        intro x hx
        rw [hcur x hx]
        have h0 := hcur c0 (by simp)
        simp [h0]
      · simp [tokenizeAux]
      · intro t0 ts heq _
        simp [tokenizeAux] at heq
        obtain ⟨rfl, -⟩ := heq
        have h0 := hcur c0 (by simp)
        simp [h0]
  | cons c cs ih =>
    rw [tokenizeAux]
    cases current with
    | nil =>
      rw [if_neg (by simp)]
      have ihh := ih ([] ++ [c]) (isWordChar c) (by simp)
      refine ⟨ihh.1, ihh.2.1, ?_⟩
      intro t0 ts heq hcne
      exact absurd rfl hcne
    | cons c0 cur' =>
      by_cases hcb : isWordChar c = b
      · rw [if_neg (by simp [hcb])]
        have hgrow : ∀ x ∈ (c0 :: cur') ++ [c], isWordChar x = isWordChar c := by
          intro x hx
          rcases List.mem_append.mp hx with hx | hx
          · rw [hcur x hx, hcb]
          · simp at hx
            rw [hx]
        have ihh := ih _ _ hgrow
        refine ⟨ihh.1, ihh.2.1, ?_⟩
        intro t0 ts heq _
        rw [ihh.2.2 t0 ts heq (by simp), hcb]
      · rw [if_pos (by simp [hcb])]
        have ihh := ih [c] (isWordChar c) (by simp)
        refine ⟨?_, ?_, ?_⟩
        · intro t ht
          rcases List.mem_cons.mp ht with rfl | ht
          · refine ⟨by simp, ?_⟩
            intro x hx
            rw [hcur x hx]
            have h0 := hcur c0 (by simp)
            simp [h0]
          · exact ihh.1 t ht
        · rw [List.chain'_cons']
          refine ⟨?_, ihh.2.1⟩
          intro y hy
          have hy' : isWordChar (y.headD ' ') = isWordChar c := by
            cases hny : tokenizeAux cs [c] (isWordChar c) with
            | nil =>
              rw [hny] at hy
              exact absurd hy (by simp)
            | cons a t =>
              rw [hny] at hy
              simp at hy
              subst hy
              exact ihh.2.2 a t hny (by simp)
          rw [hy']
          have h0 := hcur c0 (by simp)
          simp only [List.headD_cons, h0]
          intro hbad
          exact hcb hbad.symm
        · intro t0 ts heq _
          have ht0 : t0 = c0 :: cur' := by
            rw [List.cons.injEq] at heq
            exact heq.1.symm
          subst ht0
          have h0 := hcur c0 (by simp)
          simp [h0]

/-- C6: the tokenizer is lossless (concatenating the tokens reproduces the
line), every token is a non-empty run of characters of a single word /
non-word class, adjacent tokens alternate classes, the empty line yields no
tokens, and `"foo-bar"` tokenizes to `"foo"`, `"-"`, `"bar"`. -/
theorem tokenize_lossless_and_alternating :
    (∀ l : Line, (tokenize l).flatten = l)
    ∧ (∀ l : Line, ∀ t ∈ tokenize l, t ≠ [] ∧
        ∀ c ∈ t, isWordChar c = isWordChar (t.headD ' '))
    ∧ (∀ l : Line, List.Chain'
        (fun s t => isWordChar (s.headD ' ') ≠ isWordChar (t.headD ' '))
        (tokenize l))
    ∧ tokenize [] = []
    ∧ tokenize ("foo-bar".data) = ["foo".data, "-".data, "bar".data] := by
  refine ⟨?_, ?_, ?_, by decide, by decide⟩
  · intro l
    rw [tokenize, tokenizeAux_flatten]
    rfl
  · intro l
    exact (tokenizeAux_good l [] false (by simp)).1
  · intro l
    exact (tokenizeAux_good l [] false (by simp)).2.1

/-- Witness for C6: the first token of `"foo-bar"` is a non-empty
single-class run. -/
theorem tokenize_lossless_and_alternating_witness :
    ("foo".data : Line) ≠ [] ∧ ∀ c ∈ ("foo".data : Line),
      isWordChar c = isWordChar (("foo".data : Line).headD ' ') :=
  tokenize_lossless_and_alternating.2.1 ("foo-bar".data) ("foo".data) (by decide)

-- ============================================
-- Hunk-header examples (C7)
-- ============================================

/-- C7: parsing the header `@@ -3,4 +3,6 @@ foo` yields oldStart=3,
oldLines=4, newStart=3, newLines=6, with the header line — and therefore its
trailing context `foo` — preserved verbatim in the hunk; parsing
`@@ -1 +1 @@` yields oldLines=1 and newLines=1, the omitted comma-counts
defaulting to 1. -/
theorem parseHunk_header_examples :
    ((parseHunk [("@@ -3,4 +3,6 @@ foo".data : Line)] true).map
        (fun p => (p.1.oldStart, p.1.oldLines, p.1.newStart, p.1.newLines,
          p.1.header)))
      = some (3, 4, 3, 6, "@@ -3,4 +3,6 @@ foo".data)
    ∧ ((parseHunk [("@@ -1 +1 @@".data : Line)] true).map
        (fun p => (p.1.oldLines, p.1.newLines))) = some (1, 1) := by
  exact ⟨by decide, by decide⟩

-- ============================================
-- Hunk-body invariants (C4, C8, C1, C10)
-- ============================================

/-- Changes that carry an old-file line: `delete` and `normal`. -/
def isOldSide (c : DiffChange) : Bool :=
  c.type == ChangeType.delete || c.type == ChangeType.normal

/-- Changes that carry a new-file line: `add` and `normal`. -/
def isNewSide (c : DiffChange) : Bool :=
  c.type == ChangeType.add || c.type == ChangeType.normal

theorem range'_cons (s n : Nat) :
    List.range' s (n + 1) = s :: List.range' (s + 1) n := rfl

theorem parseHunkBody_counters (ls : List Line) (co cn : Nat) :
    (((parseHunkBody ls co cn).1.filter isOldSide).map (fun c => c.oldLineNumber)
      = (List.range' co ((parseHunkBody ls co cn).1.filter isOldSide).length).map some)
    ∧ (((parseHunkBody ls co cn).1.filter isNewSide).map (fun c => c.newLineNumber)
      = (List.range' cn ((parseHunkBody ls co cn).1.filter isNewSide).length).map some) := by
  induction ls, co, cn using parseHunkBody.induct
  all_goals rw [parseHunkBody.eq_def]
  all_goals simp_all [isOldSide, isNewSide, range'_cons]

theorem parseHunkBody_presence (ls : List Line) (co cn : Nat) :
    ∀ c ∈ (parseHunkBody ls co cn).1,
      (c.oldLineNumber.isSome = true ↔
        (c.type = ChangeType.delete ∨ c.type = ChangeType.normal))
      ∧ (c.newLineNumber.isSome = true ↔
        (c.type = ChangeType.add ∨ c.type = ChangeType.normal)) := by
  induction ls, co, cn using parseHunkBody.induct
  all_goals rw [parseHunkBody.eq_def]
  all_goals simp_all

theorem parseHunkBody_wordDiff_none (ls : List Line) (co cn : Nat) :
    ∀ c ∈ (parseHunkBody ls co cn).1, c.wordDiff = none := by
  induction ls, co, cn using parseHunkBody.induct
  all_goals rw [parseHunkBody.eq_def]
  all_goals simp_all

theorem parseHunk_changes (ls : List Line) (d : Bool) (h : DiffHunk)
    (r : List Line) (hp : parseHunk ls d = some (h, r)) :
    ∃ body, h.changes = (parseHunkBody body h.oldStart h.newStart).1 := by
  cases ls with
  | nil => exact absurd hp (by simp [parseHunk])
  | cons header rest =>
    rw [parseHunk] at hp
    cases hm : matchHunkHeader header with
    | none =>
      rw [hm] at hp
      exact absurd hp (by simp)
    | some q =>
      obtain ⟨o, ol, n, nl, ctx⟩ := q
      rw [hm] at hp
      simp only [Option.some.injEq, Prod.mk.injEq] at hp
      obtain ⟨hh, -⟩ := hp
      subst hh
      exact ⟨rest, rfl⟩

theorem mem_parseHunks (ls : List Line) (d : Bool) (h : DiffHunk)
    (hm : h ∈ (parseHunks ls d).1) :
    ∃ ls' r, parseHunk ls' d = some (h, r) := by
  induction ls, d using parseHunks.induct with
  | case1 d => exact absurd (by rw [parseHunks] at hm; exact hm) (by simp)
  | case2 d l rest hgit =>
    rw [parseHunks] at hm
    rw [if_pos hgit] at hm
    exact absurd hm (by simp)
  | case3 d l rest hgit hat pr ih =>
    rw [parseHunks] at hm
    rw [if_neg hgit, if_pos hat] at hm
    simp only [List.mem_append] at hm
    rcases hm with hm | hm
    · rw [parseHunkStep] at hm
      cases hpk : parseHunk (l :: rest) d with
      | none =>
        rw [hpk] at hm
        exact absurd hm (by simp)
      | some pr =>
        obtain ⟨hk, r⟩ := pr
        rw [hpk] at hm
        simp at hm
        subst hm
        exact ⟨l :: rest, r, hpk⟩
    · exact ih hm
  | case4 d l rest hgit hat ih =>
    rw [parseHunks] at hm
    rw [if_neg hgit, if_neg hat] at hm
    exact ih hm

theorem parseFile_hunks (ls : List Line) (d : Bool) (f : DiffFile)
    (r : List Line) (hp : parseFile ls d = some (f, r)) :
    ∃ ms, f.hunks = (parseHunks ms d).1 := by
  cases ls with
  | nil => exact absurd hp (by simp [parseFile])
  | cons gitLine rest =>
    rw [parseFile] at hp
    cases hm : matchGitLine gitLine with
    | none =>
      rw [hm] at hp
      exact absurd hp (by simp)
    | some q =>
      obtain ⟨op, np⟩ := q
      rw [hm] at hp
      simp only [Option.some.injEq, Prod.mk.injEq] at hp
      obtain ⟨hh, -⟩ := hp
      subst hh
      exact ⟨(scanMeta rest FileStatus.modified).2, rfl⟩

theorem mem_parseGitDiffLines (ls : List Line) (d : Bool) (f : DiffFile)
    (hm : f ∈ parseGitDiffLines ls d) :
    ∃ ls' r, parseFile ls' d = some (f, r) := by
  induction ls, d using parseGitDiffLines.induct with
  | case1 d => exact absurd (by rw [parseGitDiffLines] at hm; exact hm) (by simp)
  | case2 d l rest hgit pr ih =>
    rw [parseGitDiffLines] at hm
    rw [if_pos hgit] at hm
    simp only [List.mem_append] at hm
    rcases hm with hm | hm
    · rw [parseFileStep] at hm
      cases hpf : parseFile (l :: rest) d with
      | none =>
        rw [hpf] at hm
        exact absurd hm (by simp)
      | some pr =>
        obtain ⟨fl, r⟩ := pr
        rw [hpf] at hm
        simp at hm
        subst hm
        exact ⟨l :: rest, r, hpf⟩
    · exact ih hm
  | case3 d l rest hgit ih =>
    rw [parseGitDiffLines] at hm
    rw [if_neg hgit] at hm
    exact ih hm

theorem mem_hunks_of_parse (s : List Char) (d : Bool) (f : DiffFile)
    (h : DiffHunk) (hf : f ∈ parseGitDiff s d) (hh : h ∈ f.hunks) :
    ∃ body, h.changes = (parseHunkBody body h.oldStart h.newStart).1 := by
  rw [parseGitDiff] at hf
  obtain ⟨ls', r, hp⟩ := mem_parseGitDiffLines _ _ _ hf
  obtain ⟨ms, hhunks⟩ := parseFile_hunks _ _ _ _ hp
  rw [hhunks] at hh
  obtain ⟨ls'', r', hph⟩ := mem_parseHunks _ _ _ hh
  exact parseHunk_changes _ _ _ _ hph

/-- C4: in every parsed hunk, the old line numbers of its delete/normal
changes form the consecutive sequence `oldStart, oldStart+1, …` and the new
line numbers of its add/normal changes form the consecutive sequence
`newStart, newStart+1, …`, one number per emitted change of the relevant
kind in encounter order (in particular, `\` marker lines, which emit no
change, leave both counters untouched). -/
theorem parse_counters_consecutive :
    ∀ (s : List Char) (d : Bool), ∀ f ∈ parseGitDiff s d, ∀ h ∈ f.hunks,
      ((h.changes.filter isOldSide).map (fun c => c.oldLineNumber)
        = (List.range' h.oldStart (h.changes.filter isOldSide).length).map some)
      ∧ ((h.changes.filter isNewSide).map (fun c => c.newLineNumber)
        = (List.range' h.newStart (h.changes.filter isNewSide).length).map some) := by
  intro s d f hf h hh
  obtain ⟨body, hb⟩ := mem_hunks_of_parse s d f h hf hh
  rw [hb]
  exact parseHunkBody_counters body h.oldStart h.newStart

/-- C8: every change produced by the parser has an old line number exactly
when its kind is delete or normal, and a new line number exactly when its
kind is add or normal. -/
theorem parse_line_number_presence :
    ∀ (s : List Char) (d : Bool), ∀ f ∈ parseGitDiff s d, ∀ h ∈ f.hunks,
      ∀ c ∈ h.changes,
        (c.oldLineNumber.isSome = true ↔
          (c.type = ChangeType.delete ∨ c.type = ChangeType.normal))
        ∧ (c.newLineNumber.isSome = true ↔
          (c.type = ChangeType.add ∨ c.type = ChangeType.normal)) := by
  intro s d f hf h hh c hc
  obtain ⟨body, hb⟩ := mem_hunks_of_parse s d f h hf hh
  rw [hb] at hc
  exact parseHunkBody_presence body h.oldStart h.newStart c hc

-- ============================================
-- A concrete parsed example shared by the witnesses
-- ============================================

/-- A small two-line replacement diff used to instantiate the universally
quantified theorems. -/
def demoInput : List Char :=
  "diff --git a/f b/f\n@@ -1,2 +1,2 @@\n-a b\n+a c\n x".data

/-- The changes the parser emits for `demoInput`. -/
def demoChanges : List DiffChange :=
  [{ type := ChangeType.delete, content := "a b".data, oldLineNumber := some 1 },
   { type := ChangeType.add, content := "a c".data, newLineNumber := some 1 },
   { type := ChangeType.normal, content := "x".data, oldLineNumber := some 2,
     newLineNumber := some 2 }]

/-- The hunk the parser emits for `demoInput`. -/
def demoHunk : DiffHunk :=
  { header := "@@ -1,2 +1,2 @@".data, oldStart := 1, oldLines := 2,
    newStart := 1, newLines := 2, changes := demoChanges, isExpanded := true }

/-- The file the parser emits for `demoInput`. -/
def demoFile : DiffFile :=
  { oldPath := "f".data, newPath := "f".data, hunks := [demoHunk],
    status := FileStatus.modified, isExpanded := true }

theorem demoParse_eval : parseGitDiff demoInput true = [demoFile] := by
  simp [parseGitDiff, splitLines, parseGitDiffLines, parseFileStep, parseFile,
        scanMeta, parseHunks, parseHunkStep, parseHunk, parseHunkBody,
        matchGitLine, findPathSplit, matchHunkHeader, stripPre, parseNum,
        parseOptComma, digitsVal, sw, diffGitMarker, gitPathPre, bSep, hunkPre,
        plusSep, atAtSep, atAtMarker, newFileModeMarker, deletedFileModeMarker,
        renameFromMarker, copyFromMarker, indexMarker, dashesMarker,
        plusesMarker, binaryFilesMarker, demoInput, demoFile, demoHunk,
        demoChanges]

/-- Witness for C4 at the hunk parsed from `demoInput`. -/
theorem parse_counters_consecutive_witness :
    ((demoHunk.changes.filter isOldSide).map (fun c => c.oldLineNumber)
      = (List.range' demoHunk.oldStart
          (demoHunk.changes.filter isOldSide).length).map some)
    ∧ ((demoHunk.changes.filter isNewSide).map (fun c => c.newLineNumber)
      = (List.range' demoHunk.newStart
          (demoHunk.changes.filter isNewSide).length).map some) :=
  parse_counters_consecutive demoInput true demoFile
    (by rw [demoParse_eval]; exact List.mem_singleton.mpr rfl) demoHunk
    (by simp [demoFile])

/-- Witness for C8 at the first change parsed from `demoInput`. -/
theorem parse_line_number_presence_witness :
    ((demoChanges.headD default).oldLineNumber.isSome = true ↔
      ((demoChanges.headD default).type = ChangeType.delete ∨
        (demoChanges.headD default).type = ChangeType.normal))
    ∧ ((demoChanges.headD default).newLineNumber.isSome = true ↔
      ((demoChanges.headD default).type = ChangeType.add ∨
        (demoChanges.headD default).type = ChangeType.normal)) :=
  parse_line_number_presence demoInput true demoFile
    (by rw [demoParse_eval]; exact List.mem_singleton.mpr rfl) demoHunk
    (by simp [demoFile]) (demoChanges.headD default) (by decide)

-- ============================================
-- Metadata scanning: status and binary sections (C3, C9)
-- ============================================

/-- The effect of one metadata line on the running status: each
status-setting marker overwrites the status, so across a section the last
marker encountered wins. -/
def statusUpd (st : FileStatus) (l : Line) : FileStatus :=
  if sw newFileModeMarker l then .added
  else if sw deletedFileModeMarker l then .deleted
  else if sw renameFromMarker l then .renamed
  else if sw copyFromMarker l then .copied
  else st

/-- A metadata line that neither terminates the scan (`diff --git`, `@@`,
`Binary files`) nor is consumed specially. -/
def plainMeta (l : Line) : Bool :=
  !(sw diffGitMarker l) && !(sw atAtMarker l) && !(sw binaryFilesMarker l)

theorem scanMeta_cons_plain (l : Line) (ls : List Line) (st : FileStatus)
    (hp : plainMeta l = true) :
    scanMeta (l :: ls) st = scanMeta ls (statusUpd st l) := by
  simp only [plainMeta, Bool.and_eq_true, Bool.not_eq_true'] at hp
  obtain ⟨⟨h1, h2⟩, h3⟩ := hp
  rw [scanMeta, statusUpd]
  simp only [h1, h2, h3, Bool.false_eq_true, if_false]
  repeat' split
  all_goals rfl

theorem scanMeta_append_plain (metas rest : List Line) (st : FileStatus)
    (hp : ∀ l ∈ metas, plainMeta l = true) :
    scanMeta (metas ++ rest) st = scanMeta rest (metas.foldl statusUpd st) := by
  induction metas generalizing st with
  | nil => simp
  | cons m ms ih =>
    rw [List.cons_append, scanMeta_cons_plain m _ st (hp m (by simp))]
    exact ih _ (fun x hx => hp x (List.mem_cons_of_mem _ hx))

theorem scanMeta_status_stop (rest : List Line) (s : FileStatus)
    (hstop : rest = [] ∨ ∃ r rs, rest = r :: rs ∧
      (sw diffGitMarker r = true ∨ sw atAtMarker r = true ∨
        sw binaryFilesMarker r = true)) :
    (scanMeta rest s).1 = s := by
  rcases hstop with rfl | ⟨r, rs, rfl, hr⟩
  · rfl
  · rcases hr with h | h | h
    · rw [scanMeta]
      simp [h]
    · obtain ⟨t, rfl⟩ := (sw_iff_exists _ _).mp h
      rw [scanMeta]
      simp [sw, diffGitMarker, newFileModeMarker, deletedFileModeMarker,
            renameFromMarker, copyFromMarker, indexMarker, dashesMarker,
            plusesMarker, atAtMarker, binaryFilesMarker]
    · obtain ⟨t, rfl⟩ := (sw_iff_exists _ _).mp h
      rw [scanMeta]
      simp [sw, diffGitMarker, newFileModeMarker, deletedFileModeMarker,
            renameFromMarker, copyFromMarker, indexMarker, dashesMarker,
            plusesMarker, atAtMarker, binaryFilesMarker]

/-- C3 (amended): the status of a file section is decided by the LAST
status-setting marker among its metadata lines (each marker overwrites the
running status); when none appears, the status is `modified`.  The fold of
`statusUpd` over the metadata region expresses exactly this. -/
theorem parseFile_status_last_marker :
    ∀ (git : Line) (metas rest : List Line) (d : Bool),
      (matchGitLine git).isSome = true →
      (∀ l ∈ metas, plainMeta l = true) →
      (rest = [] ∨ ∃ r rs, rest = r :: rs ∧
        (sw diffGitMarker r = true ∨ sw atAtMarker r = true ∨
          sw binaryFilesMarker r = true)) →
      ((parseFile (git :: (metas ++ rest)) d).map (fun p => p.1.status))
        = some (metas.foldl statusUpd FileStatus.modified) := by
  intro git metas rest d hgit hmetas hstop
  rw [parseFile]
  cases hm : matchGitLine git with
  | none => rw [hm] at hgit; exact absurd hgit (by simp)
  | some q =>
    obtain ⟨op, np⟩ := q
    rw [scanMeta_append_plain metas rest FileStatus.modified hmetas]
    simp [scanMeta_status_stop rest _ hstop]

/-- Witness for the amended C3: a section carrying `new file mode` and then
`rename from` ends `renamed` — the later marker decides. -/
theorem parseFile_status_last_marker_witness :
    ((parseFile (("diff --git a/f b/f".data : Line) ::
        (["new file mode 100644".data, "rename from f".data] ++ [])) true).map
      (fun p => p.1.status))
      = some (([("new file mode 100644".data : Line), "rename from f".data]).foldl
          statusUpd FileStatus.modified) :=
  parseFile_status_last_marker ("diff --git a/f b/f".data)
    ["new file mode 100644".data, "rename from f".data] [] true
    (by decide) (by decide) (Or.inl rfl)

/-- Input refuting the claim that the first status marker wins: the section
carries `new file mode` (which would mean `added`) before `rename from`. -/
def lastMarkerInput : List Char :=
  "diff --git a/f b/f\nnew file mode 100644\nrename from f".data

/-- C3 counterexample: on `lastMarkerInput`, whose first status-setting
marker is `new file mode` (status `added` under the claim), the parser
reports `renamed` — the later `rename from` marker overwrote the status. -/
theorem parse_status_first_marker_refuted :
    (parseGitDiff lastMarkerInput true).map (fun f => f.status)
      = [FileStatus.renamed]
    ∧ FileStatus.renamed ≠ FileStatus.added := by
  constructor
  · simp [parseGitDiff, splitLines, parseGitDiffLines, parseFileStep, parseFile,
          scanMeta, parseHunks, parseHunkStep, parseHunk, parseHunkBody,
          matchGitLine, findPathSplit, matchHunkHeader, stripPre, parseNum,
          parseOptComma, digitsVal, sw, diffGitMarker, gitPathPre, bSep,
          hunkPre, plusSep, atAtSep, atAtMarker, newFileModeMarker,
          deletedFileModeMarker, renameFromMarker, copyFromMarker, indexMarker,
          dashesMarker, plusesMarker, binaryFilesMarker, lastMarkerInput]
  · decide

theorem parseHunks_skip_all (ls : List Line) (d : Bool)
    (h : ∀ l ∈ ls, sw atAtMarker l = false ∧ sw diffGitMarker l = false) :
    parseHunks ls d = ([], []) := by
  induction ls with
  | nil => rw [parseHunks]
  | cons l rest ih =>
    rw [parseHunks]
    simp only [(h l (by simp)).1, (h l (by simp)).2, Bool.false_eq_true,
      if_false]
    exact ih (fun x hx => h x (List.mem_cons_of_mem _ hx))

/-- C9 (amended): a `Binary files` line ends metadata scanning immediately —
metadata lines after it (even status markers) no longer influence the
status — and a file entry is still produced, consuming the whole section;
its hunk list is empty provided no later line of the section is a hunk
header. -/
theorem parseFile_binary_section :
    ∀ (git : Line) (metas : List Line) (bin : Line) (post : List Line)
      (d : Bool),
      (matchGitLine git).isSome = true →
      (∀ l ∈ metas, plainMeta l = true) →
      sw binaryFilesMarker bin = true →
      (∀ l ∈ post, sw atAtMarker l = false ∧ sw diffGitMarker l = false) →
      ((parseFile (git :: (metas ++ bin :: post)) d).map
          (fun p => (p.1.hunks, p.1.status, p.2)))
        = some ([], metas.foldl statusUpd FileStatus.modified, []) := by
  intro git metas bin post d hgit hmetas hbin hpost
  rw [parseFile]
  cases hm : matchGitLine git with
  | none => rw [hm] at hgit; exact absurd hgit (by simp)
  | some q =>
    obtain ⟨op, np⟩ := q
    rw [scanMeta_append_plain metas _ FileStatus.modified hmetas]
    obtain ⟨t, rfl⟩ := (sw_iff_exists _ _).mp hbin
    rw [scanMeta]
    simp [sw, diffGitMarker, newFileModeMarker, deletedFileModeMarker,
      renameFromMarker, copyFromMarker, indexMarker, dashesMarker,
      plusesMarker, atAtMarker, binaryFilesMarker,
      parseHunks_skip_all post d hpost]

/-- Witness for the amended C9: after the `Binary files` line even a
`new file mode` line no longer affects the status, and the file entry comes
out with an empty hunk list. -/
theorem parseFile_binary_section_witness :
    ((parseFile (("diff --git a/f b/f".data : Line) ::
        ([] ++ ("Binary files a/f and b/f differ".data : Line) ::
          [("new file mode 100644".data : Line)])) true).map
      (fun p => (p.1.hunks, p.1.status, p.2)))
      = some ([], ([] : List Line).foldl statusUpd FileStatus.modified, []) :=
  parseFile_binary_section ("diff --git a/f b/f".data) []
    ("Binary files a/f and b/f differ".data) ["new file mode 100644".data] true
    (by decide) (by simp) (by decide) (by decide)

/-- Input refuting the unconditional empty-hunk-list claim for binary
sections: a hunk header follows the `Binary files` line inside the same
section. -/
def binaryHunkInput : List Char :=
  "diff --git a/f b/f\nBinary files a/f and b/f differ\n@@ -1 +1 @@\n x".data

/-- C9 counterexample: on `binaryHunkInput` the `Binary files` line is
present in the metadata, yet the produced file entry has one hunk, not an
empty hunk list — the hunk loop still runs after the binary marker breaks
metadata scanning. -/
theorem parse_binary_empty_hunks_refuted :
    (parseGitDiff binaryHunkInput true).map (fun f => f.hunks.length) = [1]
    ∧ (1 : Nat) ≠ 0 := by
  constructor
  · simp [parseGitDiff, splitLines, parseGitDiffLines, parseFileStep, parseFile,
          scanMeta, parseHunks, parseHunkStep, parseHunk, parseHunkBody,
          matchGitLine, findPathSplit, matchHunkHeader, stripPre, parseNum,
          parseOptComma, digitsVal, sw, diffGitMarker, gitPathPre, bSep,
          hunkPre, plusSep, atAtSep, atAtMarker, newFileModeMarker,
          deletedFileModeMarker, renameFromMarker, copyFromMarker, indexMarker,
          dashesMarker, plusesMarker, binaryFilesMarker, binaryHunkInput]
  · decide

-- ============================================
-- Old-slice reconstruction (C1)
-- ============================================

/-- A well-formed hunk body line: non-empty with leading marker `+`, `-`,
space, or backslash. -/
def bodyLineWF (l : Line) : Bool :=
  match l with
  | [] => false
  | c :: _ => c == '+' || c == '-' || c == ' ' || c == '\\'

theorem parseHunkBody_wf_body (ls : List Line) (co cn : Nat)
    (h : ∀ l ∈ ls, bodyLineWF l = true) :
    ((parseHunkBody ls co cn).1.filter isOldSide).map (fun c => c.content)
      = (ls.filter (fun l => sw ['-'] l || sw [' '] l)).map (fun l => l.drop 1)
    ∧ (parseHunkBody ls co cn).2 = [] := by
  revert h
  induction ls generalizing co cn with
  | nil =>
    intro h
    simp [parseHunkBody]
  | cons l rest ih =>
    intro h
    have hl := h l (by simp)
    have hrest : ∀ x ∈ rest, bodyLineWF x = true :=
      fun x hx => h x (List.mem_cons_of_mem _ hx)
    obtain ⟨c, cs, rfl⟩ : ∃ c cs, l = c :: cs := by
      cases l with
      | nil => exact absurd hl (by simp [bodyLineWF])
      | cons c cs => exact ⟨c, cs, rfl⟩
    rw [bodyLineWF] at hl
    simp only [Bool.or_eq_true, beq_iff_eq] at hl
    rw [parseHunkBody.eq_def]
    rcases hl with ((rfl | rfl) | rfl) | rfl
    · simp [sw, atAtMarker, diffGitMarker, isOldSide, ih co (cn + 1) hrest]
    · simp [sw, atAtMarker, diffGitMarker, isOldSide, ih (co + 1) cn hrest]
    · simp [sw, atAtMarker, diffGitMarker, isOldSide, ih (co + 1) (cn + 1) hrest]
    · simp [sw, atAtMarker, diffGitMarker, isOldSide, ih co cn hrest]

theorem scanMeta_stop_at (r : Line) (rs : List Line) (s : FileStatus)
    (h : sw diffGitMarker r = true ∨ sw atAtMarker r = true) :
    scanMeta (r :: rs) s = (s, r :: rs) := by
  rcases h with h | h
  · rw [scanMeta]
    simp [h]
  · obtain ⟨t, rfl⟩ := (sw_iff_exists _ _).mp h
    rw [scanMeta]
    simp [sw, diffGitMarker, newFileModeMarker, deletedFileModeMarker,
      renameFromMarker, copyFromMarker, indexMarker, dashesMarker,
      plusesMarker, atAtMarker, binaryFilesMarker]

theorem parseFile_single_hunk (git : Line) (metas : List Line) (header : Line)
    (body : List Line) (d : Bool) (op np : Line) (o : Nat) (ol : Option Nat)
    (n : Nat) (nl : Option Nat) (ctx : Line)
    (hpq : matchGitLine git = some (op, np))
    (hmetas : ∀ l ∈ metas, plainMeta l = true)
    (hq : matchHunkHeader header = some (o, ol, n, nl, ctx))
    (hbody : ∀ l ∈ body, bodyLineWF l = true) :
    parseFile (git :: (metas ++ header :: body)) d
      = some ({ oldPath := op, newPath := np,
                hunks := [{ header := header, oldStart := o,
                            oldLines := ol.getD 1, newStart := n,
                            newLines := nl.getD 1,
                            changes := (parseHunkBody body o n).1,
                            isExpanded := d }],
                status := metas.foldl statusUpd FileStatus.modified,
                isExpanded := d }, []) := by
  have hhsw : sw hunkPre header = true := by
    by_cases hsw : sw hunkPre header = true
    · exact hsw
    · rw [matchHunkHeader] at hq
      simp [stripPre, hsw] at hq
  have hatat : sw atAtMarker header = true := by
    have hsplit : hunkPre = atAtMarker ++ (" -".data) := by decide
    exact sw_of_sw_append _ _ _ (hsplit ▸ hhsw)
  have hdg : sw diffGitMarker header = false := by
    obtain ⟨t, ht⟩ := (sw_iff_exists _ _).mp hhsw
    rw [ht]
    simp [sw, diffGitMarker, hunkPre]
  have hwf := parseHunkBody_wf_body body o n hbody
  have hsm : scanMeta (metas ++ header :: body) FileStatus.modified
      = (metas.foldl statusUpd FileStatus.modified, header :: body) := by
    rw [scanMeta_append_plain _ _ _ hmetas,
        scanMeta_stop_at _ _ _ (Or.inr hatat)]
  have hph : parseHunks (header :: body) d
      = ([{ header := header, oldStart := o, oldLines := ol.getD 1,
            newStart := n, newLines := nl.getD 1,
            changes := (parseHunkBody body o n).1, isExpanded := d }], []) := by
    rw [parseHunks]
    rw [if_neg (by simp [hdg]), if_pos hatat]
    rw [parseHunkStep, parseHunk]
    simp only [hq]
    simp [hwf.2, parseHunks]
  simp [parseFile, hpq, hsm, hph]

/-- C1: for a well-formed single-file, single-hunk diff (valid boundary
line, plain metadata lines, valid hunk header, and body lines each led by
`+`, `-`, space, or backslash), the contents of the delete/normal changes,
in emission order, are exactly the hunk body lines whose marker is `-` or
space with the marker stripped — the old-file slice covered by the hunk. -/
theorem parse_reconstructs_old_slice :
    ∀ (git : Line) (metas : List Line) (header : Line) (body : List Line)
      (d : Bool),
      (matchGitLine git).isSome = true →
      (∀ l ∈ metas, plainMeta l = true) →
      (matchHunkHeader header).isSome = true →
      (∀ l ∈ body, bodyLineWF l = true) →
      (parseGitDiffLines (git :: (metas ++ header :: body)) d).map
          (fun f => f.hunks.map (fun h =>
            (h.changes.filter isOldSide).map (fun c => c.content)))
        = [[(body.filter (fun l => sw ['-'] l || sw [' '] l)).map
            (fun l => l.drop 1)]] := by
  intro git metas header body d hgit hmetas hheader hbody
  obtain ⟨pq, hpq⟩ := Option.isSome_iff_exists.mp hgit
  obtain ⟨op, np⟩ := pq
  obtain ⟨q, hq⟩ := Option.isSome_iff_exists.mp hheader
  obtain ⟨o, ol, n, nl, ctx⟩ := q
  have hgitsw : sw diffGitMarker git = true := by
    have hsplit : gitPathPre = diffGitMarker ++ (" a/".data) := by decide
    rw [matchGitLine] at hpq
    by_cases hsw : sw gitPathPre git = true
    · exact sw_of_sw_append _ _ _ (hsplit ▸ hsw)
    · rw [if_neg hsw] at hpq
      exact absurd hpq (by simp)
  have hfile := parseFile_single_hunk git metas header body d op np o ol n nl
    ctx hpq hmetas hq hbody
  have hwf := parseHunkBody_wf_body body o n hbody
  rw [parseGitDiffLines, if_pos hgitsw, parseFileStep, hfile]
  simp [parseGitDiffLines, hwf.1]

/-- Witness for C1 on the single-hunk diff
`diff --git a/f b/f` / `@@ -1,2 +1,2 @@` / `-a b`, `+a c`, ` x`. -/
theorem parse_reconstructs_old_slice_witness :
    (parseGitDiffLines (("diff --git a/f b/f".data : Line) ::
        ([] ++ ("@@ -1,2 +1,2 @@".data : Line) ::
          [("-a b".data : Line), "+a c".data, " x".data])) true).map
        (fun f => f.hunks.map (fun h =>
          (h.changes.filter isOldSide).map (fun c => c.content)))
      = [[(([("-a b".data : Line), "+a c".data, " x".data]).filter
          (fun l => sw ['-'] l || sw [' '] l)).map (fun l => l.drop 1)]] :=
  parse_reconstructs_old_slice ("diff --git a/f b/f".data) []
    ("@@ -1,2 +1,2 @@".data) ["-a b".data, "+a c".data, " x".data] true
    (by decide) (by simp) (by decide) (by decide)

-- ============================================
-- Word-diff annotation rule (C5)
-- ============================================

/-- A change with its word-diff annotation erased; used to state that the
annotation pass alters no other field. -/
def stripWordDiff (c : DiffChange) : DiffChange := { c with wordDiff := none }

/-- The annotation of one replacement block as the spec words it: pair the
deletes and adds positionally up to `min(deleteCount, addCount)`, annotate
exactly those pairs on both sides, and leave the unpaired trailing entries
of the longer run untouched. -/
def specPairAnnotated (ds as : List DiffChange) : List DiffChange :=
  (List.zipWith (fun dl al => { dl with
      wordDiff := some (computeLineDiff dl.content al.content
        ChangeType.delete) }) ds as
    ++ ds.drop (min ds.length as.length))
  ++ (List.zipWith (fun dl al => { al with
      wordDiff := some (computeLineDiff dl.content al.content
        ChangeType.add) }) ds as
    ++ as.drop (min ds.length as.length))

theorem mapIdx_const_fun {α β : Type _} (g : α → β) (l : List α) :
    (l.mapIdx fun _ x => g x) = l.map g := by
  induction l with
  | nil => simp
  | cons a t ih => simp [List.mapIdx_cons, ih]

theorem map_mapIdx' {α β γ : Type _} (l : List α) (f : Nat → α → β)
    (g : β → γ) : (l.mapIdx f).map g = l.mapIdx (fun i x => g (f i x)) := by
  induction l generalizing f with
  | nil => simp
  | cons a t ih => simp [List.mapIdx_cons, ih]

theorem annotateDeletes_eq_spec (ds as : List DiffChange) :
    annotateDeletes ds as =
      List.zipWith (fun dl al => { dl with
          wordDiff := some (computeLineDiff dl.content al.content
            ChangeType.delete) }) ds as
        ++ ds.drop (min ds.length as.length) := by
  induction ds generalizing as with
  | nil => simp [annotateDeletes]
  | cons d ds' ih =>
    cases as with
    | nil =>
      simp only [annotateDeletes, List.length_nil, Nat.min_zero,
        Nat.not_lt_zero, if_false, List.zipWith_nil_right, List.drop_zero,
        List.nil_append]
      exact mapIdx_const_fun (fun x => x) (d :: ds') |>.trans (List.map_id _)
    | cons a as' =>
      rw [annotateDeletes, List.mapIdx_cons]
      simp only [List.length_cons, Nat.succ_min_succ, Nat.succ_lt_succ_iff,
        List.getD_cons_succ, List.getD_cons_zero, Nat.zero_lt_succ, if_pos,
        List.zipWith_cons_cons, List.drop_succ_cons, List.cons_append]
      rw [List.cons.injEq]
      refine ⟨rfl, ?_⟩
      rw [← ih as']
      rw [annotateDeletes]

theorem annotateAdds_eq_spec (ds as : List DiffChange) :
    annotateAdds ds as =
      List.zipWith (fun dl al => { al with
          wordDiff := some (computeLineDiff dl.content al.content
            ChangeType.add) }) ds as
        ++ as.drop (min ds.length as.length) := by
  induction as generalizing ds with
  | nil => simp [annotateAdds]
  | cons a as' ih =>
    cases ds with
    | nil =>
      simp only [annotateAdds, List.length_nil, Nat.zero_min,
        Nat.not_lt_zero, if_false, List.zipWith_nil_left, List.drop_zero,
        List.nil_append]
      exact mapIdx_const_fun (fun x => x) (a :: as') |>.trans (List.map_id _)
    | cons d ds' =>
      rw [annotateAdds, List.mapIdx_cons]
      simp only [List.length_cons, Nat.succ_min_succ, Nat.succ_lt_succ_iff,
        List.getD_cons_succ, List.getD_cons_zero, Nat.zero_lt_succ, if_pos,
        List.zipWith_cons_cons, List.drop_succ_cons, List.cons_append]
      rw [List.cons.injEq]
      refine ⟨rfl, ?_⟩
      rw [← ih ds']
      rw [annotateAdds]

theorem map_strip_annotateDeletes (ds as : List DiffChange) :
    (annotateDeletes ds as).map stripWordDiff = ds.map stripWordDiff := by
  rw [annotateDeletes, map_mapIdx']
  have hfun : (fun j dl => stripWordDiff
      (if j < min ds.length as.length then
        { dl with wordDiff := some (computeLineDiff dl.content
            ((as.getD j default).content) ChangeType.delete) }
      else dl)) = fun (_ : Nat) (dl : DiffChange) => stripWordDiff dl := by
    funext j dl
    split
    · rfl
    · rfl
  rw [hfun, mapIdx_const_fun]

theorem map_strip_annotateAdds (ds as : List DiffChange) :
    (annotateAdds ds as).map stripWordDiff = as.map stripWordDiff := by
  rw [annotateAdds, map_mapIdx']
  have hfun : (fun j al => stripWordDiff
      (if j < min ds.length as.length then
        { al with wordDiff := some (computeLineDiff
            ((ds.getD j default).content) al.content ChangeType.add) }
      else al)) = fun (_ : Nat) (al : DiffChange) => stripWordDiff al := by
    funext j al
    split
    · rfl
    · rfl
  rw [hfun, mapIdx_const_fun]

theorem computeHunkWordDiffs_strip (cs : List DiffChange) :
    (computeHunkWordDiffs cs).map stripWordDiff = cs.map stripWordDiff := by
  induction cs using computeHunkWordDiffs.induct with
  | case1 => rw [computeHunkWordDiffs]
  | case2 c cs hc ih =>
    rw [computeHunkWordDiffs, dif_pos hc, List.map_append, ih]
    have hsplit1 := (List.takeWhile_append_dropWhile
      (fun x => x.type == ChangeType.delete) (c :: cs)).symm
    have hsplit2 := (List.takeWhile_append_dropWhile
      (fun x => x.type == ChangeType.add)
      ((c :: cs).dropWhile (fun x => x.type == ChangeType.delete))).symm
    have hrhs : (c :: cs).map stripWordDiff =
        ((c :: cs).takeWhile (fun x => x.type == ChangeType.delete)).map
            stripWordDiff
          ++ ((((c :: cs).dropWhile (fun x => x.type == ChangeType.delete)).takeWhile
              (fun x => x.type == ChangeType.add)).map stripWordDiff
            ++ ((((c :: cs).dropWhile (fun x => x.type == ChangeType.delete)).dropWhile
              (fun x => x.type == ChangeType.add)).map stripWordDiff)) := by
      conv_lhs => rw [hsplit1, hsplit2]
      rw [List.map_append, List.map_append]
    rw [hrhs]
    split
    · rw [List.map_append, map_strip_annotateDeletes, map_strip_annotateAdds,
        List.append_assoc]
    · rw [List.map_append, List.append_assoc]
  | case3 c cs hc ih =>
    rw [computeHunkWordDiffs, dif_neg hc]
    simp [ih]

theorem takeWhile_append_all {α : Type _} (p : α → Bool) (l1 l2 : List α)
    (h : ∀ x ∈ l1, p x = true) :
    (l1 ++ l2).takeWhile p = l1 ++ l2.takeWhile p := by
  induction l1 with
  | nil => simp
  | cons a t ih =>
    rw [List.cons_append, List.takeWhile_cons, if_pos (h a (by simp))]
    rw [ih (fun x hx => h x (List.mem_cons_of_mem _ hx))]
    simp

theorem dropWhile_append_all {α : Type _} (p : α → Bool) (l1 l2 : List α)
    (h : ∀ x ∈ l1, p x = true) :
    (l1 ++ l2).dropWhile p = l2.dropWhile p := by
  induction l1 with
  | nil => simp
  | cons a t ih =>
    rw [List.cons_append, List.dropWhile_cons, if_pos (h a (by simp))]
    exact ih (fun x hx => h x (List.mem_cons_of_mem _ hx))

theorem takeWhile_head_false {α : Type _} (p : α → Bool) (l : List α)
    (h : ∀ c, l.head? = some c → p c = false) :
    l.takeWhile p = [] ∧ l.dropWhile p = l := by
  cases l with
  | nil => simp
  | cons a t =>
    have ha := h a rfl
    rw [List.takeWhile_cons, List.dropWhile_cons]
    simp [ha]

theorem computeHunkWordDiffs_block (ds as rest : List DiffChange)
    (hne : ds ≠ [])
    (hds : ∀ c ∈ ds, c.type = ChangeType.delete)
    (has : ∀ c ∈ as, c.type = ChangeType.add)
    (hra : ∀ c, rest.head? = some c → c.type ≠ ChangeType.add)
    (hrd : as = [] → ∀ c, rest.head? = some c → c.type ≠ ChangeType.delete) :
    computeHunkWordDiffs (ds ++ as ++ rest) =
      (if as ≠ [] ∧ ds.length ≤ 5 ∧ as.length ≤ 5
        then specPairAnnotated ds as
        else ds ++ as) ++ computeHunkWordDiffs rest := by
  obtain ⟨d, ds', rfl⟩ := List.exists_cons_of_ne_nil hne
  have hdsb : ∀ x ∈ d :: ds', (fun x => x.type == ChangeType.delete) x = true := by
    intro x hx
    simp [hds x hx]
  have hasb : ∀ x ∈ as, (fun x => x.type == ChangeType.add) x = true := by
    intro x hx
    simp [has x hx]
  have hat : (as ++ rest).takeWhile (fun x => x.type == ChangeType.delete)
      = [] := by
    cases as with
    | nil =>
      simp only [List.nil_append]
      exact (takeWhile_head_false _ rest (by
        intro c hc
        simp [hrd rfl c hc])).1
    | cons a as' =>
      rw [List.cons_append, List.takeWhile_cons,
        if_neg (by simp [has a (by simp)])]
  have hadrop : (as ++ rest).dropWhile (fun x => x.type == ChangeType.delete)
      = as ++ rest := by
    cases as with
    | nil =>
      simp only [List.nil_append]
      exact (takeWhile_head_false _ rest (by
        intro c hc
        simp [hrd rfl c hc])).2
    | cons a as' =>
      rw [List.cons_append, List.dropWhile_cons,
        if_neg (by simp [has a (by simp)])]
  have hrtake : rest.takeWhile (fun x => x.type == ChangeType.add) = [] :=
    (takeWhile_head_false _ rest (by intro c hc; simp [hra c hc])).1
  have hrdrop : rest.dropWhile (fun x => x.type == ChangeType.add) = rest :=
    (takeWhile_head_false _ rest (by intro c hc; simp [hra c hc])).2
  have htdel : ((d :: ds') ++ as ++ rest).takeWhile
      (fun x => x.type == ChangeType.delete) = d :: ds' := by
    rw [List.append_assoc, takeWhile_append_all _ _ _ hdsb, hat,
      List.append_nil]
  have hddel : ((d :: ds') ++ as ++ rest).dropWhile
      (fun x => x.type == ChangeType.delete) = as ++ rest := by
    rw [List.append_assoc, dropWhile_append_all _ _ _ hdsb, hadrop]
  have htadd : (as ++ rest).takeWhile (fun x => x.type == ChangeType.add)
      = as := by
    rw [takeWhile_append_all _ _ _ hasb, hrtake, List.append_nil]
  have hdadd : (as ++ rest).dropWhile (fun x => x.type == ChangeType.add)
      = rest := by
    rw [dropWhile_append_all _ _ _ hasb, hrdrop]
  have hcons : (d :: ds') ++ as ++ rest = d :: (ds' ++ (as ++ rest)) := by
    simp
  rw [hcons] at htdel hddel ⊢
  rw [computeHunkWordDiffs, dif_pos (by simp [hds d (by simp)])]
  rw [htdel, hddel, htadd, hdadd]
  by_cases helig : as ≠ [] ∧ (d :: ds').length ≤ 5 ∧ as.length ≤ 5
  · obtain ⟨hane, h5d, h5a⟩ := helig
    rw [if_pos (by
      simp only [Bool.and_eq_true, decide_eq_true_eq]
      refine ⟨⟨⟨by simp, ?_⟩, h5d⟩, h5a⟩
      exact List.length_pos.mpr hane)]
    rw [if_pos ⟨hane, h5d, h5a⟩]
    rw [annotateDeletes_eq_spec, annotateAdds_eq_spec, specPairAnnotated]
  · rw [if_neg (by
      simp only [Bool.and_eq_true, decide_eq_true_eq]
      intro hcond
      obtain ⟨⟨⟨-, hlen⟩, h5d⟩, h5a⟩ := hcond
      exact helig ⟨List.length_pos.mp hlen, h5d, h5a⟩)]
    rw [if_neg helig]

/-- C5: the per-hunk word-diff pass (applied by `computeWordDiffs` to every
hunk) alters no field other than `wordDiff` — erasing the annotations gives
back the input changes, same kinds, contents, line numbers, order and count
— and on every replacement block (a maximal run of deletes followed by the
maximal run of adds immediately after it, with nothing of the block left in
`rest`), it attaches word diffs exactly to the first
`min(deleteCount, addCount)` changes of either run when the block is
eligible (both runs non-empty, each at most 5 long), and leaves ineligible
blocks entirely unannotated. -/
theorem wordDiff_annotation_rule :
    (∀ cs : List DiffChange,
      (computeHunkWordDiffs cs).map stripWordDiff = cs.map stripWordDiff)
    ∧ (∀ ds as rest : List DiffChange, ds ≠ [] →
        (∀ c ∈ ds, c.type = ChangeType.delete) →
        (∀ c ∈ as, c.type = ChangeType.add) →
        (∀ c, rest.head? = some c → c.type ≠ ChangeType.add) →
        (as = [] → ∀ c, rest.head? = some c → c.type ≠ ChangeType.delete) →
        computeHunkWordDiffs (ds ++ as ++ rest) =
          (if as ≠ [] ∧ ds.length ≤ 5 ∧ as.length ≤ 5
            then specPairAnnotated ds as
            else ds ++ as) ++ computeHunkWordDiffs rest) :=
  ⟨computeHunkWordDiffs_strip, computeHunkWordDiffs_block⟩

/-- Witness for C5 on a one-delete/one-add replacement block. -/
theorem wordDiff_annotation_rule_witness :
    computeHunkWordDiffs
        (([{ type := ChangeType.delete, content := "a b".data,
             oldLineNumber := some 1 }] : List DiffChange) ++
          [{ type := ChangeType.add, content := "a c".data,
             newLineNumber := some 1 }] ++ []) =
      (if ([{ type := ChangeType.add, content := "a c".data,
              newLineNumber := some 1 }] : List DiffChange) ≠ [] ∧
          ([{ type := ChangeType.delete, content := "a b".data,
              oldLineNumber := some 1 }] : List DiffChange).length ≤ 5 ∧
          ([{ type := ChangeType.add, content := "a c".data,
              newLineNumber := some 1 }] : List DiffChange).length ≤ 5
        then specPairAnnotated
          [{ type := ChangeType.delete, content := "a b".data,
             oldLineNumber := some 1 }]
          [{ type := ChangeType.add, content := "a c".data,
             newLineNumber := some 1 }]
        else [{ type := ChangeType.delete, content := "a b".data,
                oldLineNumber := some 1 }] ++
          [{ type := ChangeType.add, content := "a c".data,
             newLineNumber := some 1 }]) ++ computeHunkWordDiffs [] :=
  wordDiff_annotation_rule.2
    [{ type := ChangeType.delete, content := "a b".data,
       oldLineNumber := some 1 }]
    [{ type := ChangeType.add, content := "a c".data, newLineNumber := some 1 }]
    [] (by decide) (by decide) (by decide)
    (fun c hc => absurd hc (by simp))
    (fun h => absurd h (by decide))

-- ============================================
-- Word-diff token values spell the line (C10)
-- ============================================

theorem lcsBacktrackAux_sublist (a b : List Line) (dp : List (List Nat)) :
    ∀ (fuel i j : Nat) (acc : List Line), i ≤ a.length → j ≤ b.length →
      ∃ L, lcsBacktrackAux a b dp fuel i j acc = L ++ acc
        ∧ List.Sublist L (a.take i) ∧ List.Sublist L (b.take j) := by
  intro fuel
  induction fuel with
  | zero =>
    intro i j acc hi hj
    exact ⟨[], rfl, List.nil_sublist _, List.nil_sublist _⟩
  | succ fuel ih =>
    intro i j acc hi hj
    match i, j with
    | 0, j => exact ⟨[], rfl, List.nil_sublist _, List.nil_sublist _⟩
    | i + 1, 0 => exact ⟨[], rfl, List.nil_sublist _, List.nil_sublist _⟩
    | i + 1, j + 1 =>
      have hia : i < a.length := hi
      have hjb : j < b.length := hj
      have htka : a.take (i + 1) = a.take i ++ [a.getD i []] := by
        rw [List.take_succ, List.getElem?_eq_getElem hia]
        simp [List.getD_eq_getElem?_getD, List.getElem?_eq_getElem hia]
      have htkb : b.take (j + 1) = b.take j ++ [b.getD j []] := by
        rw [List.take_succ, List.getElem?_eq_getElem hjb]
        simp [List.getD_eq_getElem?_getD, List.getElem?_eq_getElem hjb]
      rw [lcsBacktrackAux]
      split
      · rename_i heq
        have hab : a.getD i [] = b.getD j [] := eq_of_beq heq
        obtain ⟨L, hL, hLa, hLb⟩ := ih i j (a.getD i [] :: acc)
          (Nat.le_of_succ_le hi) (Nat.le_of_succ_le hj)
        refine ⟨L ++ [a.getD i []], by rw [hL]; simp, ?_, ?_⟩
        · rw [htka]
          exact List.Sublist.append hLa (List.Sublist.refl _)
        · rw [htkb, ← hab]
          exact List.Sublist.append hLb (List.Sublist.refl _)
      · split
        · obtain ⟨L, hL, hLa, hLb⟩ := ih i (j + 1) acc
            (Nat.le_of_succ_le hi) hj
          refine ⟨L, hL, ?_, hLb⟩
          refine hLa.trans ?_
          rw [htka]
          exact List.sublist_append_left _ _
        · obtain ⟨L, hL, hLa, hLb⟩ := ih (i + 1) j acc hi
            (Nat.le_of_succ_le hj)
          refine ⟨L, hL, hLa, ?_⟩
          refine hLb.trans ?_
          rw [htkb]
          exact List.sublist_append_left _ _

theorem computeLCS_sublist (a b : List Line) :
    List.Sublist (computeLCS a b) a ∧ List.Sublist (computeLCS a b) b := by
  obtain ⟨L, hL, hLa, hLb⟩ := lcsBacktrackAux_sublist a b (lcsTable a b)
    (a.length + b.length) a.length b.length [] (le_refl _) (le_refl _)
  rw [computeLCS, hL, List.append_nil]
  rw [List.take_length] at hLa hLb
  exact ⟨hLa, hLb⟩

theorem dropWhile_ne_cons (l : Line) (xs : List Line) (h : l ∈ xs) :
    ∃ rest, xs.dropWhile (fun w => w != l) = l :: rest := by
  induction xs with
  | nil => simp at h
  | cons x xs' ih =>
    by_cases hx : x = l
    · subst hx
      rw [List.dropWhile_cons, if_neg (by simp)]
      exact ⟨xs', rfl⟩
    · rw [List.dropWhile_cons, if_pos (by simp [hx])]
      rcases List.mem_cons.mp h with heq | h'
      · exact absurd heq.symm hx
      · exact ih h'

theorem sublist_tail_dropWhile (l : Line) (ls ows : List Line)
    (hsub : List.Sublist (l :: ls) ows) :
    List.Sublist ls ((ows.dropWhile (fun w => w != l)).drop 1) := by
  induction ows with
  | nil => exact absurd hsub (by simp)
  | cons x ow' ih =>
    by_cases hx : x = l
    · subst hx
      rw [List.dropWhile_cons, if_neg (by simp), List.drop_one, List.tail_cons]
      cases hsub with
      | cons _ h => exact (List.sublist_cons_self _ _).trans h
      | cons₂ _ h => exact h
    · rw [List.dropWhile_cons, if_pos (by simp [hx])]
      have hsub' : List.Sublist (l :: ls) ow' := by
        cases hsub with
        | cons _ h => exact h
        | cons₂ _ h => exact absurd rfl hx
      exact ih hsub'

theorem map_value_mk (t : ChangeType) (xs : List Line) :
    (xs.map (fun w => ({ type := t, value := w } : WordChange))).map
      (fun w => w.value) = xs := by
  induction xs with
  | nil => rfl
  | cons x xs ih => simp [ih]

theorem map_value_comp_mk (t : ChangeType) (xs : List Line) :
    xs.map ((fun w => w.value) ∘
      (fun w => ({ type := t, value := w } : WordChange))) = xs := by
  induction xs with
  | nil => rfl
  | cons x xs ih => simp only [List.map_cons, Function.comp_apply, ih]

theorem ows_decomp (l : Line) (ows : List Line) (h : l ∈ ows) :
    ows = ows.takeWhile (fun w => w != l) ++
      l :: (ows.dropWhile (fun w => w != l)).tail := by
  obtain ⟨rest, hrest⟩ := dropWhile_ne_cons l ows h
  conv_lhs => rw [← List.takeWhile_append_dropWhile (fun w => w != l) ows]
  rw [hrest]
  simp

theorem lineDiffWalk_delete_spec :
    ∀ (lcs ows nws : List Line), List.Sublist lcs ows →
      ((lineDiffWalk ChangeType.delete ows nws lcs).map (fun w => w.value)
          = ows
        ∧ ∀ w ∈ lineDiffWalk ChangeType.delete ows nws lcs,
            w.type ≠ ChangeType.add) := by
  intro lcs
  induction lcs with
  | nil =>
    intro ows nws hsub
    rw [lineDiffWalk]
    constructor
    · simp [map_value_mk, map_value_comp_mk]
    · intro w hw
      simp at hw
      obtain ⟨x, hx, rfl⟩ := hw
      simp
  | cons l ls ih =>
    intro ows nws hsub
    have hmem : l ∈ ows := hsub.subset (by simp)
    have hne : ows.isEmpty = false := by
      cases ows
      · simp at hmem
      · simp
    have hih := ih ((ows.dropWhile (fun w => w != l)).drop 1)
      ((nws.dropWhile (fun w => w != l)).drop 1)
      (sublist_tail_dropWhile l ls ows hsub)
    simp only [List.drop_one] at hih
    rw [lineDiffWalk]
    rw [if_neg (by simp [hne])]
    constructor
    · simp [map_value_mk, map_value_comp_mk, hih.1]
      exact (ows_decomp l ows hmem).symm
    · intro w hw
      simp at hw
      rcases hw with ⟨x, hx, rfl⟩ | rfl | hw
      · simp
      · simp
      · exact hih.2 w hw

theorem lineDiffWalk_add_spec :
    ∀ (lcs ows nws : List Line), List.Sublist lcs nws →
      ((lineDiffWalk ChangeType.add ows nws lcs).map (fun w => w.value)
          = nws
        ∧ ∀ w ∈ lineDiffWalk ChangeType.add ows nws lcs,
            w.type ≠ ChangeType.delete) := by
  intro lcs
  induction lcs with
  | nil =>
    intro ows nws hsub
    rw [lineDiffWalk]
    constructor
    · simp [map_value_mk, map_value_comp_mk]
    · intro w hw
      simp at hw
      obtain ⟨x, hx, rfl⟩ := hw
      simp
  | cons l ls ih =>
    intro ows nws hsub
    have hmem : l ∈ nws := hsub.subset (by simp)
    have hne : nws.isEmpty = false := by
      cases nws
      · simp at hmem
      · simp
    have hih := ih ((ows.dropWhile (fun w => w != l)).drop 1)
      ((nws.dropWhile (fun w => w != l)).drop 1)
      (sublist_tail_dropWhile l ls nws hsub)
    simp only [List.drop_one] at hih
    rw [lineDiffWalk]
    rw [if_neg (by simp [hne])]
    constructor
    · simp [map_value_mk, map_value_comp_mk, hih.1]
      exact (ows_decomp l nws hmem).symm
    · intro w hw
      simp at hw
      rcases hw with ⟨x, hx, rfl⟩ | rfl | hw
      · simp
      · simp
      · exact hih.2 w hw

theorem computeLineDiff_delete_join (oldL newL : Line) :
    ((computeLineDiff oldL newL ChangeType.delete).map
        (fun w => w.value)).flatten = oldL
    ∧ ∀ w ∈ computeLineDiff oldL newL ChangeType.delete,
        w.type ≠ ChangeType.add := by
  have hsub := (computeLCS_sublist (tokenize oldL) (tokenize newL)).1
  have hspec := lineDiffWalk_delete_spec
    (computeLCS (tokenize oldL) (tokenize newL)) (tokenize oldL)
    (tokenize newL) hsub
  rw [computeLineDiff]
  refine ⟨?_, hspec.2⟩
  rw [hspec.1, tokenize, tokenizeAux_flatten]
  rfl

theorem computeLineDiff_add_join (oldL newL : Line) :
    ((computeLineDiff oldL newL ChangeType.add).map
        (fun w => w.value)).flatten = newL
    ∧ ∀ w ∈ computeLineDiff oldL newL ChangeType.add,
        w.type ≠ ChangeType.delete := by
  have hsub := (computeLCS_sublist (tokenize oldL) (tokenize newL)).2
  have hspec := lineDiffWalk_add_spec
    (computeLCS (tokenize oldL) (tokenize newL)) (tokenize oldL)
    (tokenize newL) hsub
  rw [computeLineDiff]
  refine ⟨?_, hspec.2⟩
  rw [hspec.1, tokenize, tokenizeAux_flatten]
  rfl

theorem of_mem_zipWith {α β γ : Type _} (f : α → β → γ) (l1 : List α)
    (l2 : List β) (x : γ) (h : x ∈ List.zipWith f l1 l2) :
    ∃ a b, a ∈ l1 ∧ b ∈ l2 ∧ x = f a b := by
  induction l1 generalizing l2 with
  | nil => simp at h
  | cons a t ih =>
    cases l2 with
    | nil => simp at h
    | cons b t2 =>
      rw [List.zipWith_cons_cons] at h
      rcases List.mem_cons.mp h with rfl | h
      · exact ⟨a, b, by simp, by simp, rfl⟩
      · obtain ⟨a', b', h1, h2, h3⟩ := ih t2 h
        exact ⟨a', b', List.mem_cons_of_mem _ h1,
          List.mem_cons_of_mem _ h2, h3⟩

theorem computeHunkWordDiffs_wordDiff_source :
    ∀ cs : List DiffChange, (∀ c ∈ cs, c.wordDiff = none) →
      ∀ c ∈ computeHunkWordDiffs cs, ∀ wd, c.wordDiff = some wd →
        (c.type = ChangeType.delete ∧
          ∃ other, wd = computeLineDiff c.content other ChangeType.delete)
        ∨ (c.type = ChangeType.add ∧
          ∃ other, wd = computeLineDiff other c.content ChangeType.add) := by
  intro cs
  induction cs using computeHunkWordDiffs.induct with
  | case1 =>
    intro hnone c hc wd hwd
    rw [computeHunkWordDiffs] at hc
    exact absurd hc (by simp)
  | case2 c cs hc ih =>
    intro hnone x hx wd hwd
    rw [computeHunkWordDiffs, dif_pos hc] at hx
    rw [List.mem_append] at hx
    rcases hx with hx | hx
    · split at hx
      · rw [List.mem_append] at hx
        rcases hx with hx | hx
        · rw [annotateDeletes_eq_spec, List.mem_append] at hx
          rcases hx with hx | hx
          · obtain ⟨dl, al, hdl, hal, rfl⟩ := of_mem_zipWith _ _ _ _ hx
            simp at hwd
            left
            refine ⟨?_, al.content, ?_⟩
            · have hty := List.mem_takeWhile_imp hdl
              simp at hty
              exact hty
            · exact hwd.symm
          · have hxorig : x ∈ c :: cs := by
              have h1 := List.mem_of_mem_drop hx
              exact (List.takeWhile_sublist _).subset h1
            rw [hnone x hxorig] at hwd
            exact absurd hwd (by simp)
        · rw [annotateAdds_eq_spec, List.mem_append] at hx
          rcases hx with hx | hx
          · obtain ⟨dl, al, hdl, hal, rfl⟩ := of_mem_zipWith _ _ _ _ hx
            simp at hwd
            right
            refine ⟨?_, dl.content, ?_⟩
            · have hty := List.mem_takeWhile_imp hal
              simp at hty
              exact hty
            · exact hwd.symm
          · have hxorig : x ∈ c :: cs := by
              have h1 := List.mem_of_mem_drop hx
              exact ((List.takeWhile_sublist _).trans
                (List.dropWhile_sublist _)).subset h1
            rw [hnone x hxorig] at hwd
            exact absurd hwd (by simp)
      · rw [List.mem_append] at hx
        have hxorig : x ∈ c :: cs := by
          rcases hx with hx | hx
          · exact (List.takeWhile_sublist _).subset hx
          · exact ((List.takeWhile_sublist _).trans
              (List.dropWhile_sublist _)).subset hx
        rw [hnone x hxorig] at hwd
        exact absurd hwd (by simp)
    · refine ih ?_ x hx wd hwd
      intro y hy
      exact hnone y (((List.dropWhile_sublist _).trans
        (List.dropWhile_sublist _)).subset hy)
  | case3 c cs hc ih =>
    intro hnone x hx wd hwd
    rw [computeHunkWordDiffs, dif_neg hc] at hx
    rcases List.mem_cons.mp hx with rfl | hx
    · rw [hnone x (by simp)] at hwd
      exact absurd hwd (by simp)
    · exact ih (fun y hy => hnone y (List.mem_cons_of_mem _ hy)) x hx wd hwd

/-- C10: every word-diff annotation that `computeWordDiffs` attaches to a
change of a parsed diff spells that change's own content: concatenating the
values of its word tokens in order reproduces the content exactly — on a
delete change the tokens are delete/normal only (together the old line), on
an add change add/normal only (together the new line). -/
theorem wordDiff_values_spell_content :
    ∀ (s : List Char) (d : Bool),
      ∀ f ∈ computeWordDiffs (parseGitDiff s d), ∀ h ∈ f.hunks,
        ∀ c ∈ h.changes, ∀ wd, c.wordDiff = some wd →
          ((wd.map (fun w => w.value)).flatten = c.content
            ∧ (c.type = ChangeType.delete →
                ∀ w ∈ wd, w.type ≠ ChangeType.add)
            ∧ (c.type = ChangeType.add →
                ∀ w ∈ wd, w.type ≠ ChangeType.delete)) := by
  intro s d f hf h hh c hc wd hwd
  rw [computeWordDiffs] at hf
  obtain ⟨f0, hf0, rfl⟩ := List.mem_map.mp hf
  obtain ⟨h0, hh0, rfl⟩ := List.mem_map.mp hh
  have hnone : ∀ x ∈ h0.changes, x.wordDiff = none := by
    obtain ⟨body, hb⟩ := mem_hunks_of_parse s d f0 h0 hf0 hh0
    rw [hb]
    exact parseHunkBody_wordDiff_none _ _ _
  have hsrc := computeHunkWordDiffs_wordDiff_source h0.changes hnone c hc
    wd hwd
  rcases hsrc with ⟨htype, other, rfl⟩ | ⟨htype, other, rfl⟩
  · refine ⟨(computeLineDiff_delete_join c.content other).1, ?_, ?_⟩
    · intro _ w hw
      exact (computeLineDiff_delete_join c.content other).2 w hw
    · intro hadd
      rw [htype] at hadd
      exact absurd hadd (by simp)
  · refine ⟨(computeLineDiff_add_join other c.content).1, ?_, ?_⟩
    · intro hdel
      rw [htype] at hdel
      exact absurd hdel (by simp)
    · intro _ w hw
      exact (computeLineDiff_add_join other c.content).2 w hw

/-- The changes of `demoInput` after the word-diff pass. -/
def demoWordChanges : List DiffChange :=
  [{ type := ChangeType.delete, content := "a b".data, oldLineNumber := some 1,
     wordDiff := some [{ type := ChangeType.normal, value := "a".data },
       { type := ChangeType.normal, value := " ".data },
       { type := ChangeType.delete, value := "b".data }] },
   { type := ChangeType.add, content := "a c".data, newLineNumber := some 1,
     wordDiff := some [{ type := ChangeType.normal, value := "a".data },
       { type := ChangeType.normal, value := " ".data },
       { type := ChangeType.add, value := "c".data }] },
   { type := ChangeType.normal, content := "x".data, oldLineNumber := some 2,
     newLineNumber := some 2 }]

/-- The hunk of `demoInput` after the word-diff pass. -/
def demoWordHunk : DiffHunk :=
  { demoHunk with changes := demoWordChanges }

/-- The file of `demoInput` after the word-diff pass. -/
def demoWordFile : DiffFile :=
  { demoFile with hunks := [demoWordHunk] }

theorem demoWord_eval :
    computeWordDiffs (parseGitDiff demoInput true) = [demoWordFile] := by
  rw [demoParse_eval]
  simp [computeWordDiffs, computeHunkWordDiffs, annotateDeletes, annotateAdds,
        computeLineDiff, tokenize, tokenizeAux, isWordChar, computeLCS,
        lcsTable, lcsRowsAux, buildRow, lcsBacktrackAux, dpAt, lineDiffWalk,
        demoFile, demoHunk, demoChanges, demoWordFile, demoWordHunk,
        demoWordChanges]

/-- Witness for C10 at the annotated delete change of `demoInput`. -/
theorem wordDiff_values_spell_content_witness :
    ((((demoWordChanges.headD default).wordDiff.getD []).map
        (fun w => w.value)).flatten = (demoWordChanges.headD default).content)
    ∧ ((demoWordChanges.headD default).type = ChangeType.delete →
        ∀ w ∈ (demoWordChanges.headD default).wordDiff.getD [],
          w.type ≠ ChangeType.add)
    ∧ ((demoWordChanges.headD default).type = ChangeType.add →
        ∀ w ∈ (demoWordChanges.headD default).wordDiff.getD [],
          w.type ≠ ChangeType.delete) :=
  wordDiff_values_spell_content demoInput true demoWordFile
    (by rw [demoWord_eval]; exact List.mem_singleton.mpr rfl)
    demoWordHunk (by simp [demoWordFile])
    (demoWordChanges.headD default) (by decide)
    ((demoWordChanges.headD default).wordDiff.getD []) (by decide)
